import Mathlib

/-!
Verification of the iterative document-improvement core of autodoceval-crewai.

The development shallowly embeds the Python sources:
  * `src/evcrew/tracking.py`  (IterationTracker, add_iteration, get_summary)
  * `src/evcrew/crew.py`      (DocumentCrew.auto_improve refinement loop)
  * `src/evcrew/core.py`      (auto_improve_document, generate_improved_path)
  * `src/evcrew/agents.py`    (parse_agent_response)
  * `src/evcrew/agents/base.py` (parse_eval)

Python floats that carry quality scores are modelled as rationals, so score
comparison and subtraction are exact; the claims under study are about control
flow and exact deltas, not rounding.  The LLM-backed Evaluator and Improver are
external collaborators: they are modelled as oracles indexed by the call count,
which resolves their nondeterminism while keeping every theorem universally
quantified over all possible collaborator behaviours.  File-system writes are
recorded in an event log; wall-clock timestamps, memory identifiers and pretty
printing are omitted as they do not influence the claimed behaviour.
-/

/-! ## Tracking (src/evcrew/tracking.py) -/

/-- Embeds `QualityMetrics` (tracking.py): score, feedback, word count. -/
structure QualityMetrics where
  score : ℚ
  feedback : String
  word_count : Nat
deriving DecidableEq, Repr

/-- Embeds `IterationResult` (tracking.py): one recorded iteration. -/
structure IterationResult where
  iteration : Nat
  metrics : QualityMetrics
  improved_path : Option String
  improvement_delta : Option ℚ
  content : Option String
deriving DecidableEq, Repr

/-- Embeds `IterationTracker` (tracking.py).  The `launch_id` and
`start_time` fields are wall-clock identity metadata and are omitted. -/
structure IterationTracker where
  doc_id : String
  doc_path : String
  iterations : List IterationResult
deriving DecidableEq, Repr

/-- `len(content.split()) if content else 0` from `add_iteration`. -/
def pyWordCount (content : Option String) : Nat :=
  match content with
  | some c => ((c.split Char.isWhitespace).filter (fun w => w ≠ "")).length
  | none => 0

/-- The `improvement_delta` computation of `add_iteration`:
`score - self.iterations[-1].metrics.score` when the list is nonempty and
`iteration > 0`, else `None`.  `prev` is the score of the last stored record. -/
def deltaOf (prev : Option ℚ) (iteration : Nat) (score : ℚ) : Option ℚ :=
  match prev with
  | some p => if 0 < iteration then some (score - p) else none
  | none => none

/-- Embeds `IterationTracker.add_iteration` (tracking.py lines 60-69). -/
def addIteration (t : IterationTracker) (iteration : Nat) (score : ℚ) (feedback : String)
    (improved_path : Option String) (content : Option String) : IterationTracker :=
  let metrics : QualityMetrics := ⟨score, feedback, pyWordCount content⟩
  let delta := deltaOf ((t.iterations.getLast?).map (fun r => r.metrics.score)) iteration score
  { t with iterations := t.iterations ++ [⟨iteration, metrics, improved_path, delta, content⟩] }

/-- The record-derived fields of the `get_summary` Box (tracking.py lines
71-93).  `launch_id`, `document`, `path` and `duration_seconds` are identity
and wall-clock metadata and are omitted. -/
structure RunSummary where
  iterations_count : Nat
  initial_score : ℚ
  final_score : ℚ
  total_improvement : ℚ
  iterations : List (Nat × ℚ × Option ℚ × Option String)
deriving DecidableEq, Repr

/-- Embeds `IterationTracker.get_summary`; `none` models the `Box({})`
returned for an empty tracker. -/
def getSummary (t : IterationTracker) : Option RunSummary :=
  match t.iterations.head?, t.iterations.getLast? with
  | some initial, some final =>
      some ⟨t.iterations.length - 1, initial.metrics.score, final.metrics.score,
        final.metrics.score - initial.metrics.score,
        t.iterations.map (fun r => (r.iteration, r.metrics.score, r.improvement_delta, r.improved_path))⟩
  | _, _ => none

/-- Models the caller usage pattern in the claims: records appended one after
another with contiguous iteration indices starting at `k`. -/
def appendAll (t : IterationTracker) (k : Nat) :
    List (ℚ × String × Option String × Option String) → IterationTracker
  | [] => t
  | e :: es => appendAll (addIteration t k e.1 e.2.1 e.2.2.1 e.2.2.2) (k + 1) es

/-- Specification helper: the records produced by a run of contiguous appends,
`prev` being the score of the record stored just before the run. -/
def recordsFrom (prev : Option ℚ) (k : Nat) :
    List (ℚ × String × Option String × Option String) → List IterationResult
  | [] => []
  | e :: es => ⟨k, ⟨e.1, e.2.1, pyWordCount e.2.2.2⟩, e.2.2.1, deltaOf prev k e.1, e.2.2.2⟩ ::
      recordsFrom (some e.1) (k + 1) es

lemma getLast?_append_singleton (l : List IterationResult) (a : IterationResult) :
    (l ++ [a]).getLast? = some a := List.getLast?_concat l

lemma appendAll_iterations (es : List (ℚ × String × Option String × Option String))
    (t : IterationTracker) (k : Nat) :
    (appendAll t k es).iterations =
      t.iterations ++ recordsFrom ((t.iterations.getLast?).map (fun r => r.metrics.score)) k es := by
  induction es generalizing t k with
  | nil => simp [appendAll, recordsFrom]
  | cons e es ih =>
      rw [appendAll, recordsFrom, ih]
      simp only [addIteration, getLast?_append_singleton, Option.map_some]
      rw [List.append_assoc]
      rfl

lemma recordsFrom_zero_delta (es : List (ℚ × String × Option String × Option String))
    (r : IterationResult)
    (h : (recordsFrom none 0 es).get? 0 = some r) : r.improvement_delta = none := by
  cases es with
  | nil => simp [recordsFrom] at h
  | cons e es =>
      simp only [recordsFrom, List.get?] at h
      cases h
      rfl

lemma recordsFrom_consecutive_delta (es : List (ℚ × String × Option String × Option String))
    (prev : Option ℚ) (k i : Nat)
    (rp rn : IterationResult)
    (hp : (recordsFrom prev k es).get? i = some rp)
    (hn : (recordsFrom prev k es).get? (i + 1) = some rn) :
    rn.improvement_delta = some (rn.metrics.score - rp.metrics.score) := by
  induction es generalizing prev k i with
  | nil => simp [recordsFrom] at hp
  | cons e es ih =>
      cases i with
      | zero =>
          simp only [recordsFrom, List.get?] at hp hn
          cases hp
          cases es with
          | nil => simp [recordsFrom] at hn
          | cons e2 es2 =>
              simp only [recordsFrom, List.get?] at hn
              cases hn
              simp [deltaOf]
      | succ i =>
          simp only [recordsFrom, List.get?] at hp hn
          exact ih (some e.1) (k + 1) i hp hn

lemma recordsFrom_iteration_index (es : List (ℚ × String × Option String × Option String))
    (prev : Option ℚ) (k i : Nat)
    (r : IterationResult) (h : (recordsFrom prev k es).get? i = some r) :
    r.iteration = k + i := by
  induction es generalizing prev k i with
  | nil => simp [recordsFrom] at h
  | cons e es ih =>
      cases i with
      | zero =>
          simp only [recordsFrom, List.get?] at h
          cases h
          rfl
      | succ i =>
          simp only [recordsFrom, List.get?] at h
          have := ih (some e.1) (k + 1) i h
          omega

/-- Claim C2: in a tracker built by appending records with contiguous
iteration indices starting at 0, the record appended with index 0 has a null
`improvement_delta`, and every record appended with index `n > 0` has
`improvement_delta` equal to its own score minus the score of the previously
appended record. -/
theorem C2_delta_law (docName docPath : String)
    (es : List (ℚ × String × Option String × Option String)) (n : Nat)
    (r : IterationResult)
    (hr : ((appendAll ⟨docName, docPath, []⟩ 0 es).iterations).get? n = some r) :
    (n = 0 → r.improvement_delta = none) ∧
    (∀ rp, 0 < n →
      ((appendAll ⟨docName, docPath, []⟩ 0 es).iterations).get? (n - 1) = some rp →
      r.improvement_delta = some (r.metrics.score - rp.metrics.score)) := by
  have hbase : (appendAll ⟨docName, docPath, []⟩ 0 es).iterations = recordsFrom none 0 es := by
    rw [appendAll_iterations]
    rfl
  rw [hbase] at hr
  constructor
  · intro h0
    subst h0
    exact recordsFrom_zero_delta es r hr
  · intro rp hn hp
    rw [hbase] at hp
    have hsucc : n - 1 + 1 = n := by omega
    exact recordsFrom_consecutive_delta es none 0 (n - 1) rp r hp (by rw [hsucc]; exact hr)

/-- Concrete baseline record used by the witnesses below. -/
def recA : IterationResult := ⟨0, ⟨50, "a", 0⟩, none, none, none⟩

/-- Concrete second record used by the witnesses below. -/
def recB : IterationResult := ⟨1, ⟨75, "b", 0⟩, none, some 25, none⟩

theorem C2_delta_law_witness :
    (((appendAll ⟨"d", "p", []⟩ 0 [((50:ℚ), "a", none, none), ((75:ℚ), "b", none, none)]).iterations).get? 1 = some recB) ∧
    recB.improvement_delta = some (recB.metrics.score - recA.metrics.score) :=
  ⟨by norm_num [appendAll, addIteration, deltaOf, pyWordCount, recB],
   (C2_delta_law "d" "p" [((50:ℚ), "a", none, none), ((75:ℚ), "b", none, none)] 1 recB
      (by norm_num [appendAll, addIteration, deltaOf, pyWordCount, recB])).2
    recA (by decide) (by norm_num [appendAll, addIteration, deltaOf, pyWordCount, recA])⟩

/-- Claim C6 counterexample: `add_iteration` performs no validation.  Appending
a record with iteration index 5 onto a tracker whose only record has index 0
succeeds, so the stored indices are [0, 5] — not contiguous, and 5 is not the
previous index plus one. -/
theorem C6_counterexample :
    ((addIteration (addIteration ⟨"d", "p", []⟩ 0 50 "a" none none) 5 75 "b" none none).iterations.map
      (fun r => r.iteration)) = [0, 5] ∧ (5 : Nat) ≠ 0 + 1 := by
  constructor
  · simp [addIteration]
  · decide

/-- Claim C6 (amended): `add_iteration` appends unconditionally (the length
always grows by one and the stored index is whatever was passed); hence when
the caller appends with contiguous indices starting at 0 — as both refinement
loops do — the stored indices form the contiguous sequence 0, 1, 2, …. -/
theorem C6_append_behaviour :
    (∀ (t : IterationTracker) (i : Nat) (s : ℚ) (f : String) (p c : Option String),
      (addIteration t i s f p c).iterations.length = t.iterations.length + 1 ∧
      ((addIteration t i s f p c).iterations.getLast?).map (fun r => r.iteration) = some i) ∧
    (∀ (docName docPath : String) (es : List (ℚ × String × Option String × Option String))
      (n : Nat) (r : IterationResult),
      ((appendAll ⟨docName, docPath, []⟩ 0 es).iterations).get? n = some r → r.iteration = n) := by
  constructor
  · intro t i s f p c
    constructor
    · simp [addIteration]
    · simp [addIteration, getLast?_append_singleton]
  · intro docName docPath es n r h
    have hbase : (appendAll ⟨docName, docPath, []⟩ 0 es).iterations = recordsFrom none 0 es := by
      rw [appendAll_iterations]
      rfl
    rw [hbase] at h
    have := recordsFrom_iteration_index es none 0 n r h
    omega

theorem C6_append_behaviour_witness :
    ((addIteration ⟨"d", "p", []⟩ 0 50 "a" none none).iterations.length =
      (IterationTracker.mk "d" "p" []).iterations.length + 1) ∧ recA.iteration = 0 :=
  ⟨(C6_append_behaviour.1 ⟨"d", "p", []⟩ 0 50 "a" none none).1,
   C6_append_behaviour.2 "d" "p" [((50:ℚ), "a", none, none)] 0 recA
     (by norm_num [appendAll, addIteration, deltaOf, pyWordCount, recA])⟩

/-- Claim C8: for a tracker holding exactly one record, the summary reports
final score equal to initial score and total improvement 0; and the summary is
a pure function of the record sequence (trackers with equal record sequences
yield equal summaries — it is safe to call at any point, the empty tracker
giving `none` as `get_summary` returns `Box({})` there). -/
theorem C8_summary_singleton (t : IterationTracker) (r : IterationResult)
    (h : t.iterations = [r]) :
    (∃ s, getSummary t = some s ∧ s.final_score = s.initial_score ∧ s.total_improvement = 0) ∧
    (∀ t' : IterationTracker, t'.iterations = t.iterations → getSummary t' = getSummary t) := by
  constructor
  · refine ⟨⟨0, r.metrics.score, r.metrics.score, 0,
      [(r.iteration, r.metrics.score, r.improvement_delta, r.improved_path)]⟩, ?_, rfl, rfl⟩
    simp [getSummary, h]
  · intro t' ht
    simp [getSummary, ht]

theorem C8_summary_singleton_witness :
    (∃ s, getSummary ⟨"d", "p", [recA]⟩ = some s ∧
      s.final_score = s.initial_score ∧ s.total_improvement = 0) ∧
    getSummary ⟨"e", "q", [recA]⟩ = getSummary ⟨"d", "p", [recA]⟩ :=
  ⟨(C8_summary_singleton ⟨"d", "p", [recA]⟩ recA rfl).1,
   (C8_summary_singleton ⟨"d", "p", [recA]⟩ recA rfl).2 ⟨"e", "q", [recA]⟩ rfl⟩

/-! ## The crew refinement loop (src/evcrew/crew.py, DocumentCrew.auto_improve) -/

/-- Result of one `auto_improve` run: the returned triple
`(final_doc, tracker, status)` plus instrumentation — the number of Evaluator
calls, the number of Improver calls, and the log of document writes performed
by `improver.save_results` (path, content). -/
structure RunResult where
  finalDoc : String
  tracker : IterationTracker
  status : String
  evalCalls : Nat
  improveCalls : Nat
  writes : List (String × String)

/-- `output_dir / f"{doc_name}_iter{iteration}.md"` from the loop body. -/
def iterFileName (outputDir docName : String) (iteration : Nat) : String :=
  outputDir ++ "/" ++ docName ++ "_iter" ++ toString iteration ++ ".md"

/-- `input_path or "unknown"` (Python `or` also replaces the empty string). -/
def orUnknown (p : Option String) : String :=
  match p with
  | some s => if s = "" then "unknown" else s
  | none => "unknown"

/-- A default record; the loops below only read the last record of trackers
that are provably nonempty, mirroring Python's `iterations[-1]`. -/
def dummyRecord : IterationResult := ⟨0, ⟨0, "", 0⟩, none, none, none⟩

/-- The `for iteration in range(1, max_iterations + 1)` loop of
`DocumentCrew.auto_improve` (crew.py lines 73-89).  `evalF`/`improveF` are the
collaborator oracles indexed by their call count, `iteration` is the index of
the next pass, `remaining` the number of passes left.  Returns
`(current_doc, tracker, evalCalls, improveCalls, writes)`. -/
def autoImproveLoop (evalF : Nat → String → ℚ × String)
    (improveF : Nat → String → String → String) (outputDir docName : String)
    (targetScore : ℚ) :
    Nat → Nat → String → String → IterationTracker → Nat → Nat → List (String × String) →
    String × IterationTracker × Nat × Nat × List (String × String)
  | _, 0, currentDoc, _, tracker, ne, ni, ws => (currentDoc, tracker, ne, ni, ws)
  | iteration, remaining + 1, currentDoc, currentFeedback, tracker, ne, ni, ws =>
    let improvedDoc := improveF ni currentDoc currentFeedback
    let iterPath := iterFileName outputDir docName iteration
    let sf := evalF ne improvedDoc
    let tracker1 := addIteration tracker iteration sf.1 sf.2 (some iterPath) none
    if targetScore ≤ sf.1 then
      (currentDoc, tracker1, ne + 1, ni + 1, ws ++ [(iterPath, improvedDoc)])
    else
      autoImproveLoop evalF improveF outputDir docName targetScore (iteration + 1) remaining
        improvedDoc sf.2 tracker1 (ne + 1) (ni + 1) (ws ++ [(iterPath, improvedDoc)])

/-- Embeds `DocumentCrew.auto_improve` (crew.py lines 52-100). -/
def autoImprove (evalF : Nat → String → ℚ × String)
    (improveF : Nat → String → String → String) (content outputDir docName : String)
    (maxIterations : Nat) (targetScore : ℚ) (inputPath : Option String) : RunResult :=
  let tracker0 : IterationTracker := ⟨docName, orUnknown inputPath, []⟩
  let sf := evalF 0 content
  let tracker1 := addIteration tracker0 0 sf.1 sf.2 inputPath none
  if targetScore ≤ sf.1 then
    ⟨content, tracker1, "target_met_original", 1, 0, []⟩
  else
    match autoImproveLoop evalF improveF outputDir docName targetScore 1 maxIterations
        content sf.2 tracker1 1 0 [] with
    | (finalDoc, tracker2, ne, ni, ws) =>
      let finalScore := (tracker2.iterations.getLastD dummyRecord).metrics.score
      let status := if targetScore ≤ finalScore then "target_reached" else "max_iterations_reached"
      ⟨finalDoc, tracker2, status, ne, ni, ws⟩

/-- Claim C1: a baseline evaluation meeting the target (equality included)
short-circuits: zero Improver calls, a single (baseline) record, and terminal
status `target_met_original`. -/
theorem C1_baseline_short_circuit (evalF : Nat → String → ℚ × String)
    (improveF : Nat → String → String → String) (content outputDir docName : String)
    (maxIterations : Nat) (targetScore : ℚ) (inputPath : Option String)
    (h : targetScore ≤ (evalF 0 content).1) :
    (autoImprove evalF improveF content outputDir docName maxIterations targetScore inputPath).improveCalls = 0 ∧
    (autoImprove evalF improveF content outputDir docName maxIterations targetScore inputPath).tracker.iterations.length = 1 ∧
    ((autoImprove evalF improveF content outputDir docName maxIterations targetScore inputPath).tracker.iterations.head?).map
      (fun r => r.iteration) = some 0 ∧
    (autoImprove evalF improveF content outputDir docName maxIterations targetScore inputPath).status = "target_met_original" := by
  simp [autoImprove, h, addIteration]

/-- A constant evaluator scoring exactly 70, used as a concrete witness. -/
def evalExact : Nat → String → ℚ × String := fun _ _ => (70, "fine as is")

/-- A constant improver, used as a concrete witness. -/
def improveConst : Nat → String → String → String := fun _ _ _ => "rewritten"

theorem C1_baseline_short_circuit_witness :
    (70 : ℚ) ≤ (evalExact 0 "doc text").1 ∧
    ((autoImprove evalExact improveConst "doc text" "out" "doc" 2 70 (some "doc.md")).improveCalls = 0 ∧
     (autoImprove evalExact improveConst "doc text" "out" "doc" 2 70 (some "doc.md")).tracker.iterations.length = 1 ∧
     ((autoImprove evalExact improveConst "doc text" "out" "doc" 2 70 (some "doc.md")).tracker.iterations.head?).map
       (fun r => r.iteration) = some 0 ∧
     (autoImprove evalExact improveConst "doc text" "out" "doc" 2 70 (some "doc.md")).status = "target_met_original") :=
  ⟨le_refl (70 : ℚ),
   C1_baseline_short_circuit evalExact improveConst "doc text" "out" "doc" 2 70 (some "doc.md")
     (le_refl (70 : ℚ))⟩

lemma autoImproveLoop_improveCalls (evalF : Nat → String → ℚ × String)
    (improveF : Nat → String → String → String) (outputDir docName : String)
    (targetScore : ℚ) (remaining : Nat) :
    ∀ (iteration : Nat) (currentDoc currentFeedback : String) (tracker : IterationTracker)
      (ne ni : Nat) (ws : List (String × String)),
      (autoImproveLoop evalF improveF outputDir docName targetScore iteration remaining
        currentDoc currentFeedback tracker ne ni ws).2.2.2.1 ≤ ni + remaining := by
  induction remaining with
  | zero => intro iteration currentDoc currentFeedback tracker ne ni ws; simp [autoImproveLoop]
  | succ remaining ih =>
      intro iteration currentDoc currentFeedback tracker ne ni ws
      rw [autoImproveLoop]
      by_cases h : targetScore ≤ (evalF ne (improveF ni currentDoc currentFeedback)).1
      · simp only [h, if_true]
        omega
      · simp only [h, if_false]
        have := ih (iteration + 1) (improveF ni currentDoc currentFeedback)
          (evalF ne (improveF ni currentDoc currentFeedback)).2
          (addIteration tracker iteration (evalF ne (improveF ni currentDoc currentFeedback)).1
            (evalF ne (improveF ni currentDoc currentFeedback)).2
            (some (iterFileName outputDir docName iteration)) none)
          (ne + 1) (ni + 1) (ws ++ [(iterFileName outputDir docName iteration,
            improveF ni currentDoc currentFeedback)])
        omega

/-- Claim C3: with positive `max_iterations` the refinement loop terminates
(the embedding is a total structurally recursive function) and performs at
most `max_iterations` Improver calls, for every possible Evaluator and
Improver behaviour. -/
theorem C3_iteration_bound (evalF : Nat → String → ℚ × String)
    (improveF : Nat → String → String → String) (content outputDir docName : String)
    (maxIterations : Nat) (targetScore : ℚ) (inputPath : Option String)
    (h : 0 < maxIterations) :
    (autoImprove evalF improveF content outputDir docName maxIterations targetScore inputPath).improveCalls ≤ maxIterations := by
  rw [autoImprove]
  by_cases hs : targetScore ≤ (evalF 0 content).1
  · simp [hs]
  · simp only [hs, if_false]
    have hle := autoImproveLoop_improveCalls evalF improveF outputDir docName targetScore
      maxIterations 1 content (evalF 0 content).2
      (addIteration ⟨docName, orUnknown inputPath, []⟩ 0 (evalF 0 content).1 (evalF 0 content).2
        inputPath none) 1 0 []
    generalize hgen : autoImproveLoop evalF improveF outputDir docName targetScore 1 maxIterations
      content (evalF 0 content).2
      (addIteration ⟨docName, orUnknown inputPath, []⟩ 0 (evalF 0 content).1 (evalF 0 content).2
        inputPath none) 1 0 [] = r at hle
    match r, hle with
    | (finalDoc, tracker2, ne, ni, ws), hle => simpa using hle

/-- A constant evaluator scoring 10 (always below an 85 target). -/
def evalLow : Nat → String → ℚ × String := fun _ _ => (10, "weak")

theorem C3_iteration_bound_witness :
    0 < 2 ∧
    (autoImprove evalLow improveConst "doc text" "out" "doc" 2 85 (some "doc.md")).improveCalls ≤ 2 :=
  ⟨by decide,
   C3_iteration_bound evalLow improveConst "doc text" "out" "doc" 2 85 (some "doc.md") (by decide)⟩

lemma autoImproveLoop_last (evalF : Nat → String → ℚ × String)
    (improveF : Nat → String → String → String) (outputDir docName : String)
    (targetScore : ℚ) (remaining : Nat) :
    ∀ (iteration : Nat) (currentDoc currentFeedback : String) (tracker : IterationTracker)
      (ne ni : Nat) (ws : List (String × String)) (last0 : IterationResult),
      tracker.iterations.getLast? = some last0 →
      last0.iteration + 1 = iteration →
      last0.metrics.score < targetScore →
      ∃ last1,
        (autoImproveLoop evalF improveF outputDir docName targetScore iteration remaining
          currentDoc currentFeedback tracker ne ni ws).2.1.iterations.getLast? = some last1 ∧
        ((targetScore ≤ last1.metrics.score ∧ iteration ≤ last1.iteration) ∨
         (last1.metrics.score < targetScore ∧ last1.iteration + 1 = iteration + remaining)) := by
  induction remaining with
  | zero =>
      intro iteration currentDoc currentFeedback tracker ne ni ws last0 hlast hidx hlt
      refine ⟨last0, ?_, Or.inr ⟨hlt, by omega⟩⟩
      simpa [autoImproveLoop] using hlast
  | succ remaining ih =>
      intro iteration currentDoc currentFeedback tracker ne ni ws last0 hlast hidx hlt
      rw [autoImproveLoop]
      by_cases h : targetScore ≤ (evalF ne (improveF ni currentDoc currentFeedback)).1
      · simp only [h, if_true]
        refine ⟨⟨iteration, ⟨(evalF ne (improveF ni currentDoc currentFeedback)).1,
          (evalF ne (improveF ni currentDoc currentFeedback)).2, pyWordCount none⟩,
          some (iterFileName outputDir docName iteration),
          deltaOf ((tracker.iterations.getLast?).map (fun r => r.metrics.score)) iteration
            (evalF ne (improveF ni currentDoc currentFeedback)).1, none⟩, ?_, Or.inl ⟨h, le_refl _⟩⟩
        simp [addIteration, getLast?_append_singleton]
      · simp only [h, if_false]
        exact ih (iteration + 1) (improveF ni currentDoc currentFeedback)
          (evalF ne (improveF ni currentDoc currentFeedback)).2
          (addIteration tracker iteration (evalF ne (improveF ni currentDoc currentFeedback)).1
            (evalF ne (improveF ni currentDoc currentFeedback)).2
            (some (iterFileName outputDir docName iteration)) none)
          (ne + 1) (ni + 1)
          (ws ++ [(iterFileName outputDir docName iteration, improveF ni currentDoc currentFeedback)])
          ⟨iteration, ⟨(evalF ne (improveF ni currentDoc currentFeedback)).1,
            (evalF ne (improveF ni currentDoc currentFeedback)).2, pyWordCount none⟩,
            some (iterFileName outputDir docName iteration),
            deltaOf ((tracker.iterations.getLast?).map (fun r => r.metrics.score)) iteration
              (evalF ne (improveF ni currentDoc currentFeedback)).1, none⟩
          (by simp [addIteration, getLast?_append_singleton]) rfl (not_le.mp h)
        |>.imp (fun last1 hl => ⟨hl.1, hl.2.imp
            (fun hc => ⟨hc.1, by omega⟩) (fun hc => ⟨hc.1, by omega⟩)⟩)

/-- Claim C4: for every completed run, the status is `target_reached` iff the
last record has index > 0 and score ≥ target, and the status is
`max_iterations_reached` iff the last record's score is below the target and
its index equals `max_iterations`. -/
theorem C4_status_iff (evalF : Nat → String → ℚ × String)
    (improveF : Nat → String → String → String) (content outputDir docName : String)
    (maxIterations : Nat) (targetScore : ℚ) (inputPath : Option String) :
    ((autoImprove evalF improveF content outputDir docName maxIterations targetScore inputPath).status = "target_reached" ↔
      ∃ rec, (autoImprove evalF improveF content outputDir docName maxIterations targetScore inputPath).tracker.iterations.getLast? = some rec ∧
        0 < rec.iteration ∧ targetScore ≤ rec.metrics.score) ∧
    ((autoImprove evalF improveF content outputDir docName maxIterations targetScore inputPath).status = "max_iterations_reached" ↔
      ∃ rec, (autoImprove evalF improveF content outputDir docName maxIterations targetScore inputPath).tracker.iterations.getLast? = some rec ∧
        rec.metrics.score < targetScore ∧ rec.iteration = maxIterations) := by
  rw [autoImprove]
  by_cases hs : targetScore ≤ (evalF 0 content).1
  · simp only [hs, if_true]
    have hone : (addIteration ⟨docName, orUnknown inputPath, []⟩ 0 (evalF 0 content).1
        (evalF 0 content).2 inputPath none).iterations.getLast? =
        some ⟨0, ⟨(evalF 0 content).1, (evalF 0 content).2, pyWordCount none⟩, inputPath,
          deltaOf none 0 (evalF 0 content).1, none⟩ := by
      simp [addIteration]
    constructor
    · constructor
      · intro habs
        exact absurd habs (by decide)
      · rintro ⟨rec, hrec, hpos, hscore⟩
        rw [hone, Option.some.injEq] at hrec
        subst hrec
        simp at hpos
    · constructor
      · intro habs
        exact absurd habs (by decide)
      · rintro ⟨rec, hrec, hlt, hidx⟩
        rw [hone, Option.some.injEq] at hrec
        subst hrec
        exact absurd hs (not_le.mpr hlt)
  · simp only [hs, if_false]
    have hstart : (addIteration ⟨docName, orUnknown inputPath, []⟩ 0 (evalF 0 content).1
        (evalF 0 content).2 inputPath none).iterations.getLast? =
        some ⟨0, ⟨(evalF 0 content).1, (evalF 0 content).2, pyWordCount none⟩, inputPath,
          deltaOf none 0 (evalF 0 content).1, none⟩ := by
      simp [addIteration]
    have hloop := autoImproveLoop_last evalF improveF outputDir docName targetScore
      maxIterations 1 content (evalF 0 content).2
      (addIteration ⟨docName, orUnknown inputPath, []⟩ 0 (evalF 0 content).1 (evalF 0 content).2
        inputPath none) 1 0 []
      ⟨0, ⟨(evalF 0 content).1, (evalF 0 content).2, pyWordCount none⟩, inputPath,
        deltaOf none 0 (evalF 0 content).1, none⟩
      hstart rfl (not_le.mp hs)
    generalize hgen : autoImproveLoop evalF improveF outputDir docName targetScore 1 maxIterations
      content (evalF 0 content).2
      (addIteration ⟨docName, orUnknown inputPath, []⟩ 0 (evalF 0 content).1 (evalF 0 content).2
        inputPath none) 1 0 [] = r at hloop
    obtain ⟨finalDoc, tracker2, ne, ni, ws⟩ := r
    obtain ⟨last1, hlast, hdisj⟩ := hloop
    simp only at hlast
    dsimp only
    rw [List.getLastD_eq_getLast?, hlast]
    simp only [Option.getD_some]
    rcases hdisj with ⟨hge, hit⟩ | ⟨hlt, hidx⟩
    · rw [if_pos hge]
      refine ⟨⟨fun _ => ⟨last1, rfl, by omega, hge⟩, fun _ => rfl⟩,
        ⟨fun habs => absurd habs (by decide), ?_⟩⟩
      rintro ⟨rec, hrec, hreclt, hrecidx⟩
      rw [Option.some.injEq] at hrec
      subst hrec
      exact absurd hge (not_le.mpr hreclt)
    · rw [if_neg (not_le.mpr hlt)]
      refine ⟨⟨fun habs => absurd habs (by decide), ?_⟩,
        ⟨fun _ => ⟨last1, rfl, hlt, by omega⟩, fun _ => rfl⟩⟩
      rintro ⟨rec, hrec, hrecpos, hrecge⟩
      rw [Option.some.injEq] at hrec
      subst hrec
      exact absurd hrecge (not_le.mpr hlt)

/-- Evaluator oracle for the C7 run: baseline 50, then 90 for the improved
document. -/
def evalRises : Nat → String → ℚ × String := fun n _ =>
  if n = 0 then (50, "needs work") else (90, "much better")

/-- Improver oracle for the C7 run: always returns the rewritten document. -/
def improveBetter : Nat → String → String → String := fun _ _ _ => "improved doc"

/-- Claim C7 fails on `DocumentCrew.auto_improve`: on a run whose first
improvement meets the target, the loop `break`s before `current_doc` is
updated, so the returned final document is the pre-improvement text, not the
content of the last appended record.  Concretely: baseline 50 < 85, iteration
1 scores 90 ≥ 85, status is `target_reached`, the last record points at
`out/doc_iter1.md` whose saved content is "improved doc", yet the function
returns "original doc". -/
theorem C7_stale_final_doc :
    (autoImprove evalRises improveBetter "original doc" "out" "doc" 2 85 (some "doc.md")).status = "target_reached" ∧
    (autoImprove evalRises improveBetter "original doc" "out" "doc" 2 85 (some "doc.md")).finalDoc = "original doc" ∧
    (autoImprove evalRises improveBetter "original doc" "out" "doc" 2 85 (some "doc.md")).writes =
      [(iterFileName "out" "doc" 1, "improved doc")] ∧
    ((autoImprove evalRises improveBetter "original doc" "out" "doc" 2 85 (some "doc.md")).tracker.iterations.getLast?).map
      (fun r => r.improved_path) = some (some (iterFileName "out" "doc" 1)) ∧
    "original doc" ≠ "improved doc" := by
  norm_num [autoImprove, autoImproveLoop, addIteration, deltaOf, pyWordCount, evalRises,
    improveBetter, orUnknown, dummyRecord, getLast?_append_singleton]
  decide

/-! ## Path generation (src/evcrew/core.py, generate_improved_path)

Python strings are modelled as `List Char`; `pathlib`/`os.path` joining is
modelled as plain `'/'`-joining. -/

/-- `os.path.basename`: the part after the last `'/'`. -/
def pyBasename (p : List Char) : List Char :=
  (p.reverse.takeWhile (fun c => c != '/')).reverse

/-- `os.path.splitext` on a basename: split at the last dot, except that a
name whose characters before that dot are all dots (e.g. ".gitignore") is not
split. -/
def pySplitext (b : List Char) : List Char × List Char :=
  let r := b.reverse
  let afterR := r.takeWhile (fun c => c != '.')
  if afterR.length = r.length then (b, [])
  else
    let stemR := r.drop (afterR.length + 1)
    if stemR.all (fun c => c == '.') then (b, [])
    else (stemR.reverse, '.' :: afterR.reverse)

/-- `os.path.splitext(base_name) if "." in base_name else (base_name, ".md")`
from `generate_improved_path`. -/
def pyFilenameExt (b : List Char) : List Char × List Char :=
  if '.' ∈ b then pySplitext b else (b, ['.', 'm', 'd'])

/-- The literal `"_iter"`. -/
def iterPat : List Char := ['_', 'i', 't', 'e', 'r']

/-- Python `pat in s` for strings: some occurrence of `pat` as a contiguous
substring. -/
def containsSub (pat : List Char) : List Char → Bool
  | [] => pat.isPrefixOf ([] : List Char)
  | c :: rest => pat.isPrefixOf (c :: rest) || containsSub pat rest

/-- Python `s.split(pat)[0]`: the prefix before the first occurrence of `pat`
(the whole string when there is none). -/
def beforeFirst (pat : List Char) : List Char → List Char
  | [] => []
  | c :: rest => if pat.isPrefixOf (c :: rest) then [] else c :: beforeFirst pat rest

/-- `str(n)` for a nonnegative integer: decimal digits. -/
def digitChar (n : Nat) : Char := Char.ofNat (48 + n)

/-- Decimal digit characters of `n`, most significant first. -/
def natDigits (n : Nat) : List Char :=
  if n < 10 then [digitChar n]
  else natDigits (n / 10) ++ [digitChar (n % 10)]
decreasing_by exact Nat.div_lt_self (by omega) (by omega)

/-- Embeds `generate_improved_path` (core.py lines 97-108): strip any
`_iterN` suffix from the stem and return
`docs/output/<stem>/<stem>_iter<iteration><ext>`. -/
def generateImprovedPath (docPath : List Char) (iteration : Nat) : List Char :=
  let baseName := pyBasename docPath
  let fe := pyFilenameExt baseName
  let filename := if containsSub iterPat fe.1 then beforeFirst iterPat fe.1 else fe.1
  "docs/output/".toList ++ filename ++ '/' :: (filename ++ iterPat ++ natDigits iteration ++ fe.2)

/-- `generate_improved_path` on `String`. -/
def generateImprovedPathS (docPath : String) (iteration : Nat) : String :=
  (generateImprovedPath docPath.toList iteration).asString

/-! ## The CLI auto-improvement loop (src/evcrew/core.py, auto_improve_document) -/

/-- Result of an `auto_improve_document` run: the returned `final_path` plus
the number of Evaluator and Improver calls performed. -/
structure CoreRunResult where
  finalPath : String
  evalCalls : Nat
  improveCalls : Nat
deriving DecidableEq, Repr

/-- The `while iteration < max_iterations` loop of `auto_improve_document`
(core.py lines 162-195); `iteration` is the 1-based number of the next pass,
`finalPath` tracks the latest saved version.  The `last_score` variable is
only passed to the Improver as logging metadata and is not modelled. -/
def coreLoop (evalF : Nat → String → ℚ × String) (improveF : Nat → String → String → String)
    (docPath : String) (targetScore : ℚ) :
    Nat → Nat → String → String → String → Nat → Nat → CoreRunResult
  | _, 0, _, _, finalPath, ne, ni => ⟨finalPath, ne, ni⟩
  | iteration, remaining + 1, currentDoc, currentFeedback, _, ne, ni =>
    let improvedDoc := improveF ni currentDoc currentFeedback
    let improvedPath := generateImprovedPathS docPath iteration
    let sf := evalF ne improvedDoc
    if targetScore ≤ sf.1 then ⟨improvedPath, ne + 1, ni + 1⟩
    else coreLoop evalF improveF docPath targetScore (iteration + 1) remaining
      improvedDoc sf.2 improvedPath (ne + 1) (ni + 1)

/-- Embeds `auto_improve_document` (core.py lines 111-204).  The file system
is the oracle `fs` (`none` = missing file); the `os.path.exists` check and
`read_file`'s own existence check both consult it.  No emptiness check is
performed on the document text — `read_file` returns whatever the file
holds. -/
def autoImproveDocument (fs : String → Option String) (evalF : Nat → String → ℚ × String)
    (improveF : Nat → String → String → String) (docPath : String) (maxIterations : Nat)
    (targetScore : ℚ) : Except String CoreRunResult :=
  match fs docPath with
  | none => Except.error ("File not found: " ++ docPath)
  | some originalDoc =>
    let sf := evalF 0 originalDoc
    if targetScore ≤ sf.1 then Except.ok ⟨docPath, 1, 0⟩
    else Except.ok (coreLoop evalF improveF docPath targetScore 1 maxIterations
      originalDoc sf.2 docPath 1 0)

/-- A file system holding exactly one, empty, document. -/
def fsEmptyDoc : String → Option String := fun p => if p = "doc.md" then some "" else none

/-- An empty file system. -/
def fsNone : String → Option String := fun _ => none

/-- An evaluator that scores everything 95. -/
def evalAny : Nat → String → ℚ × String := fun _ _ => (95, "clear enough")

/-- An improver that returns its input unchanged. -/
def improveNoop : Nat → String → String → String := fun _ d _ => d

/-- Claim C5 counterexample: an existing file with EMPTY text is not rejected.
`auto_improve_document` proceeds to call the Evaluator on the empty document
(one Evaluator call is recorded) and completes normally — there is no
empty-text fail-fast check anywhere on the path (core.py lines 127-149,
file_utils.py read_file). -/
theorem C5_counterexample :
    fsEmptyDoc "doc.md" = some "" ∧
    autoImproveDocument fsEmptyDoc evalAny improveNoop "doc.md" 3 70 =
      Except.ok ⟨"doc.md", 1, 0⟩ := by
  constructor
  · rfl
  · norm_num [autoImproveDocument, fsEmptyDoc, evalAny]

/-- Claim C5 (amended): a MISSING file does fail fast — `auto_improve_document`
returns the `File not found` error before any Evaluator or Improver call and
before any record is created.  (Empty text is not checked; see the
counterexample.) -/
theorem C5_missing_file_fails_fast (fs : String → Option String)
    (evalF : Nat → String → ℚ × String) (improveF : Nat → String → String → String)
    (docPath : String) (maxIterations : Nat) (targetScore : ℚ)
    (h : fs docPath = none) :
    autoImproveDocument fs evalF improveF docPath maxIterations targetScore =
      Except.error ("File not found: " ++ docPath) := by
  simp [autoImproveDocument, h]

theorem C5_missing_file_fails_fast_witness :
    fsNone "doc.md" = none ∧
    autoImproveDocument fsNone evalAny improveNoop "doc.md" 3 70 =
      Except.error ("File not found: " ++ "doc.md") :=
  ⟨rfl, C5_missing_file_fails_fast fsNone evalAny improveNoop "doc.md" 3 70 rfl⟩

/-! ## Response parsing (src/evcrew/agents.py and src/evcrew/agents/base.py)

Agent responses are modelled as `List Char`.  Python `float(...)` and
`json.loads(...)` are external decoding primitives and are passed in as
oracles (`none`/`Except.error` model the exception they can raise). -/

/-- Python `s.split('\n')` on character lists: keeps empty pieces. -/
def splitNL : List Char → List (List Char)
  | [] => [[]]
  | c :: rest =>
    if c = '\n' then [] :: splitNL rest
    else
      match splitNL rest with
      | [] => [[c]]
      | p :: ps => (c :: p) :: ps

/-- The whitespace characters recognised by `str.strip()` (ASCII subset). -/
def isPyWs (c : Char) : Bool :=
  c == ' ' || c == '\t' || c == '\n' || c == '\r' || c == '\x0b' || c == '\x0c'

/-- Python `s.strip()`. -/
def pyStrip (l : List Char) : List Char :=
  ((l.dropWhile isPyWs).reverse.dropWhile isPyWs).reverse

/-- Python `s.splitlines()` restricted to `'\n'` boundaries (the only
separator occurring in the parsed responses): like `split('\n')` but without
a trailing empty piece. -/
def pySplitlines (l : List Char) : List (List Char) :=
  match (splitNL l).getLast? with
  | some [] => (splitNL l).dropLast
  | _ => splitNL l

/-- Python `'\n'.join(...)`. -/
def joinNL : List (List Char) → List Char
  | [] => []
  | [l] => l
  | l :: ls => l ++ '\n' :: joinNL ls

/-- The literal `"Score:"`. -/
def scorePat : List Char := ['S', 'c', 'o', 'r', 'e', ':']

/-- The literal `"Feedback:"`. -/
def feedbackPat : List Char := ['F', 'e', 'e', 'd', 'b', 'a', 'c', 'k', ':']

/-- Embeds `parse_agent_response` (agents.py lines 171-196).  `pyFloat` models
Python `float(...)` (`none` = `ValueError`, which the code swallows, setting
the score to 0.0).  The function is total: it cannot raise, and a response
with no parseable `Score:` line yields score 0. -/
def parse_agent_response (pyFloat : List Char → Option ℚ) (response : List Char) :
    ℚ × List Char :=
  let step := fun (acc : ℚ × List (List Char)) (line : List Char) =>
    if scorePat.isPrefixOf line then
      match pyFloat (pyStrip (line.drop scorePat.length)) with
      | some v => (v, acc.2)
      | none => ((0 : ℚ), acc.2)
    else if feedbackPat.isPrefixOf line then
      (acc.1, acc.2 ++ [pyStrip (line.drop feedbackPat.length)])
    else if acc.2 ≠ [] then (acc.1, acc.2 ++ [pyStrip line])
    else acc
  let r := (pySplitlines response).foldl step ((0 : ℚ), [])
  (r.1, joinNL r.2)

/-- Embeds `parse_eval` (agents/base.py lines 48-55).  `jsonParse` models
`json.loads` plus the `score`/`feedback` field extraction (`Except.error` =
the exception it can raise). -/
def parse_eval (jsonParse : List Char → Except String (ℚ × List Char)) (response : List Char) :
    Except String (ℚ × List Char) :=
  let lines := splitNL (pyStrip response)
  match lines.find? (fun l => ['\x7b'].isPrefixOf (pyStrip l)) with
  | none => Except.error "No JSON found in response"
  | some jsonLine => jsonParse (pyStrip jsonLine)

/-- A `float(...)` oracle that always raises `ValueError`. -/
def pyFloatNone : List Char → Option ℚ := fun _ => none

/-- A `json.loads` oracle that always raises. -/
def jsonErr : List Char → Except String (ℚ × List Char) := fun _ => Except.error "bad json"

/-- Claim C9 counterexample: the line-based parser `parse_agent_response`
(agents.py) does NOT raise on a response with no parseable score line — it
silently returns score 0.0 with empty feedback. -/
theorem C9_counterexample :
    parse_agent_response pyFloatNone "hello world".toList = ((0 : ℚ), []) := by
  decide

/-- Claim C9 (amended): the JSON-based parser `parse_eval` (agents/base.py)
does fail loudly — any response in which no line starts (after stripping)
with `\x7b` raises `ValueError("No JSON found in response")` instead of
returning a zero score; the legacy `parse_agent_response` instead defaults
to 0.0 (see the counterexample). -/
theorem C9_parse_eval_fails_loud (jsonParse : List Char → Except String (ℚ × List Char))
    (response : List Char)
    (h : ∀ l ∈ splitNL (pyStrip response), ['\x7b'].isPrefixOf (pyStrip l) = false) :
    parse_eval jsonParse response = Except.error "No JSON found in response" := by
  have hfind : (splitNL (pyStrip response)).find? (fun l => ['\x7b'].isPrefixOf (pyStrip l)) = none := by
    rw [List.find?_eq_none]
    intro x hx
    simp [h x hx]
  simp [parse_eval, hfind]

theorem C9_parse_eval_fails_loud_witness :
    (∀ l ∈ splitNL (pyStrip "hello".toList), ['\x7b'].isPrefixOf (pyStrip l) = false) ∧
    parse_eval jsonErr "hello".toList = Except.error "No JSON found in response" :=
  ⟨by decide, C9_parse_eval_fails_loud jsonErr "hello".toList (by decide)⟩

/-! ## Lemmas about the path helpers, towards claim C10 -/

lemma takeWhile_append_cons_of_all (p : Char → Bool) (as : List Char) (c : Char)
    (bs : List Char) (ha : ∀ a ∈ as, p a = true) (hc : p c = false) :
    (as ++ c :: bs).takeWhile p = as := by
  induction as with
  | nil => simp [List.takeWhile, hc]
  | cons a as ih =>
      have hpa : p a = true := ha a (by simp)
      simp only [List.cons_append, List.takeWhile, hpa, List.append_eq]
      rw [ih (fun x hx => ha x (by simp [hx]))]

lemma takeWhile_append_of_all (p : Char → Bool) (as bs : List Char)
    (ha : ∀ a ∈ as, p a = true) :
    (as ++ bs).takeWhile p = as ++ bs.takeWhile p := by
  induction as with
  | nil => simp
  | cons a as ih =>
      have hpa : p a = true := ha a (by simp)
      simp only [List.cons_append, List.takeWhile, hpa, List.append_eq]
      rw [ih (fun x hx => ha x (by simp [hx]))]

lemma takeWhile_structure (p : Char → Bool) (r : List Char)
    (h : (r.takeWhile p).length ≠ r.length) :
    ∃ c, p c = false ∧ r = r.takeWhile p ++ c :: r.drop ((r.takeWhile p).length + 1) := by
  induction r with
  | nil => simp at h
  | cons a r ih =>
      by_cases hpa : p a = true
      · simp only [List.takeWhile, hpa] at h ⊢
        simp only [List.length_cons] at h
        obtain ⟨c, hc, hr⟩ := ih (fun habs => h (by rw [habs]))
        refine ⟨c, hc, ?_⟩
        simp only [List.length_cons, List.cons_append, List.drop_succ_cons]
        exact congrArg (List.cons a) hr
      · rw [Bool.not_eq_true] at hpa
        refine ⟨a, hpa, ?_⟩
        simp [List.takeWhile, hpa]

lemma takeWhile_length_ne_of_mem (r : List Char) (c : Char) (hc : c ∈ r)
    (p : Char → Bool) (hpc : p c = false) :
    (r.takeWhile p).length ≠ r.length := by
  intro habs
  have hpre : r.takeWhile p <+: r := List.takeWhile_prefix p
  have heq : r.takeWhile p = r := hpre.eq_of_length habs
  have := List.mem_takeWhile_imp (heq ▸ hc)
  rw [hpc] at this
  exact Bool.false_ne_true this

lemma pyBasename_no_slash (p : List Char) : '/' ∉ pyBasename p := by
  intro hmem
  rw [pyBasename, List.mem_reverse] at hmem
  have := List.mem_takeWhile_imp hmem
  simp at this

lemma pyBasename_append (xs ys : List Char) (hy : '/' ∉ ys) :
    pyBasename (xs ++ '/' :: ys) = ys := by
  rw [pyBasename]
  have hrev : (xs ++ '/' :: ys).reverse = ys.reverse ++ '/' :: xs.reverse := by simp
  rw [hrev, takeWhile_append_cons_of_all _ _ _ _ ?_ (by simp), List.reverse_reverse]
  intro a ha
  rw [List.mem_reverse] at ha
  simp only [bne_iff_ne, ne_eq, decide_eq_true_eq]
  intro habs
  exact hy (habs ▸ ha)

/-- The decimal digit characters. -/
def decDigits : List Char := ['0', '1', '2', '3', '4', '5', '6', '7', '8', '9']

lemma digitChar_mem (n : Nat) (h : n < 10) : digitChar n ∈ decDigits := by
  interval_cases n <;> decide

lemma natDigits_mem (n : Nat) : ∀ c ∈ natDigits n, c ∈ decDigits := by
  induction n using Nat.strong_induction_on with
  | _ n ih =>
      intro c hc
      rw [natDigits] at hc
      by_cases h : n < 10
      · rw [if_pos h] at hc
        simp only [List.mem_singleton] at hc
        exact hc ▸ digitChar_mem n h
      · rw [if_neg h] at hc
        rcases List.mem_append.mp hc with h1 | h2
        · exact ih (n / 10) (Nat.div_lt_self (by omega) (by omega)) c h1
        · simp only [List.mem_singleton] at h2
          exact h2 ▸ digitChar_mem (n % 10) (Nat.mod_lt n (by omega))

lemma pySplitext_append_dot (pre etail : List Char) (he : '.' ∉ etail)
    (hnd : ∃ c ∈ pre, c ≠ '.') :
    pySplitext (pre ++ '.' :: etail) = (pre, '.' :: etail) := by
  obtain ⟨c0, hc0, hc0ne⟩ := hnd
  have hrev : (pre ++ '.' :: etail).reverse = etail.reverse ++ '.' :: pre.reverse := by simp
  have htw : ((pre ++ '.' :: etail).reverse).takeWhile (fun c => c != '.') = etail.reverse := by
    rw [hrev]
    apply takeWhile_append_cons_of_all
    · intro a ha
      rw [List.mem_reverse] at ha
      rw [bne_iff_ne]
      intro habs
      exact he (habs ▸ ha)
    · simp
  rw [pySplitext]
  rw [htw, hrev]
  have hcond : ¬(etail.reverse.length = (etail.reverse ++ '.' :: pre.reverse).length) := by
    simp
  rw [if_neg hcond]
  have hidx : etail.reverse.length + 1 = etail.reverse.length + 1 := rfl
  rw [List.drop_append 1]
  simp only [List.drop_succ_cons, List.drop_zero]
  have hall : ¬((pre.reverse).all (fun c => c == '.') = true) := by
    intro hall
    have := List.all_eq_true.mp hall c0 (List.mem_reverse.mpr hc0)
    exact hc0ne (by simpa using this)
  rw [if_neg hall]
  simp

lemma pySplitext_extend_nodot (b zs : List Char) (hdot : '.' ∈ b) (hz : '.' ∉ zs)
    (hsp : pySplitext b = (b, [])) :
    pySplitext (b ++ zs) = (b ++ zs, []) := by
  have hne : (((b.reverse).takeWhile (fun c => c != '.')).length ≠ b.reverse.length) :=
    takeWhile_length_ne_of_mem b.reverse '.' (List.mem_reverse.mpr hdot) _ (by simp)
  have hall : ((b.reverse).drop (((b.reverse).takeWhile (fun c => c != '.')).length + 1)).all
      (fun c => c == '.') = true := by
    by_contra hab
    rw [pySplitext, if_neg hne, if_neg hab] at hsp
    simp at hsp
  have hrev : (b ++ zs).reverse = zs.reverse ++ b.reverse := by simp
  have htw : ((b ++ zs).reverse).takeWhile (fun c => c != '.') =
      zs.reverse ++ (b.reverse).takeWhile (fun c => c != '.') := by
    rw [hrev]
    apply takeWhile_append_of_all
    intro a ha
    rw [List.mem_reverse] at ha
    rw [bne_iff_ne]
    intro habs
    exact hz (habs ▸ ha)
  rw [pySplitext, htw, hrev]
  have hcond : ¬((zs.reverse ++ (b.reverse).takeWhile (fun c => c != '.')).length =
      (zs.reverse ++ b.reverse).length) := by
    simp only [List.length_append]
    intro habs
    exact hne (by omega)
  rw [if_neg hcond]
  have hidx : (zs.reverse ++ (b.reverse).takeWhile (fun c => c != '.')).length + 1 =
      zs.reverse.length + (((b.reverse).takeWhile (fun c => c != '.')).length + 1) := by
    simp only [List.length_append]
    omega
  rw [hidx, List.drop_append]
  rw [if_pos hall]

lemma pySplitext_cases (b : List Char) (hdot : '.' ∈ b) :
    pySplitext b = (b, []) ∨
    ∃ stem etail, pySplitext b = (stem, '.' :: etail) ∧ '.' ∉ etail ∧ b = stem ++ '.' :: etail := by
  have hne : (((b.reverse).takeWhile (fun c => c != '.')).length ≠ b.reverse.length) :=
    takeWhile_length_ne_of_mem b.reverse '.' (List.mem_reverse.mpr hdot) _ (by simp)
  by_cases hall : ((b.reverse).drop (((b.reverse).takeWhile (fun c => c != '.')).length + 1)).all
      (fun c => c == '.') = true
  · left
    rw [pySplitext, if_neg hne, if_pos hall]
  · right
    obtain ⟨c, hc, hstruct⟩ := takeWhile_structure _ b.reverse hne
    have hc' : c = '.' := by simpa using hc
    subst hc'
    refine ⟨((b.reverse).drop (((b.reverse).takeWhile (fun c => c != '.')).length + 1)).reverse,
      ((b.reverse).takeWhile (fun c => c != '.')).reverse, ?_, ?_, ?_⟩
    · rw [pySplitext, if_neg hne, if_neg hall]
    · intro habs
      rw [List.mem_reverse] at habs
      have := List.mem_takeWhile_imp habs
      simp at this
    · conv_lhs => rw [← List.reverse_reverse b, hstruct]
      simp

lemma pySplitext_mem_fst (b : List Char) (c : Char) (hc : c ∈ (pySplitext b).1) : c ∈ b := by
  by_cases h1 : ((b.reverse).takeWhile (fun c => c != '.')).length = b.reverse.length
  · rw [pySplitext, if_pos h1] at hc
    exact hc
  · by_cases h2 : ((b.reverse).drop (((b.reverse).takeWhile (fun c => c != '.')).length + 1)).all
        (fun c => c == '.') = true
    · rw [pySplitext, if_neg h1, if_pos h2] at hc
      exact hc
    · rw [pySplitext, if_neg h1, if_neg h2] at hc
      simp only at hc
      rw [List.mem_reverse] at hc
      have := List.drop_subset _ _ hc
      rwa [List.mem_reverse] at this

lemma pySplitext_mem_snd (b : List Char) (c : Char) (hc : c ∈ (pySplitext b).2) :
    c = '.' ∨ c ∈ b := by
  by_cases h1 : ((b.reverse).takeWhile (fun c => c != '.')).length = b.reverse.length
  · rw [pySplitext, if_pos h1] at hc
    simp at hc
  · by_cases h2 : ((b.reverse).drop (((b.reverse).takeWhile (fun c => c != '.')).length + 1)).all
        (fun c => c == '.') = true
    · rw [pySplitext, if_neg h1, if_pos h2] at hc
      simp at hc
    · rw [pySplitext, if_neg h1, if_neg h2] at hc
      simp only [List.mem_cons] at hc
      rcases hc with hc | hc
      · exact Or.inl hc
      · right
        rw [List.mem_reverse] at hc
        have := (List.takeWhile_prefix _).subset hc
        rwa [List.mem_reverse] at this

lemma pyFilenameExt_mem_fst (b : List Char) (c : Char) (hc : c ∈ (pyFilenameExt b).1) : c ∈ b := by
  rw [pyFilenameExt] at hc
  split at hc
  · exact pySplitext_mem_fst b c hc
  · exact hc

lemma pyFilenameExt_mem_snd (b : List Char) (c : Char) (hc : c ∈ (pyFilenameExt b).2) :
    c = '.' ∨ c = 'm' ∨ c = 'd' ∨ c ∈ b := by
  rw [pyFilenameExt] at hc
  split at hc
  · rcases pySplitext_mem_snd b c hc with h | h
    · exact Or.inl h
    · exact Or.inr (Or.inr (Or.inr h))
  · simp only [List.mem_cons, List.not_mem_nil, or_false] at hc
    rcases hc with h | h | h
    · exact Or.inl h
    · exact Or.inr (Or.inl h)
    · exact Or.inr (Or.inr (Or.inl h))

lemma iterPat_isPrefixOf_append (zs : List Char) : iterPat.isPrefixOf (iterPat ++ zs) = true := by
  rw [List.isPrefixOf_iff_prefix]
  exact List.prefix_append iterPat zs

lemma iterPat_no_overlap (g zs : List Char) (hne : g ≠ []) (hnp : ¬ iterPat <+: g) :
    ¬ iterPat <+: (g ++ (iterPat ++ zs)) := by
  intro hp
  have htake : iterPat = (g ++ (iterPat ++ zs)).take 5 := List.prefix_iff_eq_take.mp hp
  rw [List.take_append_eq_append_take] at htake
  by_cases hg5 : 5 ≤ g.length
  · have hz : 5 - g.length = 0 := by omega
    rw [hz] at htake
    simp only [List.take_zero, List.append_nil] at htake
    exact hnp (htake ▸ List.take_prefix 5 g)
  · have hgl : g.take 5 = g := List.take_of_length_le (by omega)
    rw [hgl, List.take_append_eq_append_take] at htake
    have hz : 5 - g.length - iterPat.length = 0 := by
      simp only [iterPat, List.length_cons]
      omega
    rw [hz] at htake
    simp only [List.take_zero, List.append_nil] at htake
    have hd : iterPat.drop g.length = iterPat.take (5 - g.length) := by
      conv_lhs => rw [htake]
      rw [List.drop_left]
    have hpos : 0 < g.length := List.length_pos.mpr hne
    have hlt : g.length < 5 := by omega
    set l := g.length with hl
    interval_cases l <;> simp [iterPat] at hd
  
lemma containsSub_append_pat (xs zs : List Char) :
    containsSub iterPat (xs ++ (iterPat ++ zs)) = true := by
  induction xs with
  | nil =>
      rw [List.nil_append]
      show containsSub iterPat ('_' :: (['i', 't', 'e', 'r'] ++ zs)) = true
      rw [containsSub]
      rw [show ('_' :: (['i', 't', 'e', 'r'] ++ zs)) = iterPat ++ zs from rfl]
      rw [iterPat_isPrefixOf_append]
      rw [Bool.true_or]
  | cons c xs ih =>
      rw [List.cons_append, containsSub, ih, Bool.or_true]

lemma beforeFirst_append_pat (f zs : List Char) (hf : containsSub iterPat f = false) :
    beforeFirst iterPat (f ++ (iterPat ++ zs)) = f := by
  induction f with
  | nil =>
      rw [List.nil_append]
      show beforeFirst iterPat ('_' :: (['i', 't', 'e', 'r'] ++ zs)) = []
      rw [beforeFirst]
      rw [show ('_' :: (['i', 't', 'e', 'r'] ++ zs)) = iterPat ++ zs from rfl]
      rw [iterPat_isPrefixOf_append]
      simp
  | cons c f ih =>
      rw [containsSub] at hf
      have hsplit := Bool.or_eq_false_iff.mp hf
      have hnp : ¬ iterPat <+: (c :: f) := by
        rw [← List.isPrefixOf_iff_prefix]
        simp [hsplit.1]
      have hnp2 : ¬ iterPat <+: ((c :: f) ++ (iterPat ++ zs)) :=
        iterPat_no_overlap (c :: f) zs (by simp) hnp
      rw [List.cons_append, beforeFirst]
      have hcond : iterPat.isPrefixOf (c :: (f ++ (iterPat ++ zs))) = false := by
        rw [← Bool.not_eq_true, List.isPrefixOf_iff_prefix]
        rw [show (c :: (f ++ (iterPat ++ zs))) = (c :: f) ++ (iterPat ++ zs) from rfl]
        exact hnp2
      rw [if_neg (by rw [hcond]; exact Bool.false_ne_true)]
      rw [ih hsplit.2]

/-- Claim C10: for a document path whose stem carries no `_iter`, applying
`generate_improved_path` to an already-generated path strips the `_iterN`
suffix again, so repeated application never accumulates suffixes. -/
theorem C10_path_idempotent (p : List Char) (i j : Nat)
    (h : containsSub iterPat (pyFilenameExt (pyBasename p)).1 = false) :
    generateImprovedPath (generateImprovedPath p i) j = generateImprovedPath p j := by
  obtain ⟨f, e, hfe⟩ : ∃ f e, pyFilenameExt (pyBasename p) = (f, e) := ⟨_, _, rfl⟩
  rw [hfe] at h
  simp only at h
  have h1 : ∀ k, generateImprovedPath p k =
      "docs/output/".toList ++ f ++ '/' :: (f ++ iterPat ++ natDigits k ++ e) := by
    intro k
    simp only [generateImprovedPath, hfe]
    rw [if_neg (by rw [h]; exact Bool.false_ne_true)]
  have hfmem : ∀ c ∈ f, c ∈ pyBasename p := fun c hc =>
    pyFilenameExt_mem_fst (pyBasename p) c (by rw [hfe]; exact hc)
  have hslash_f : '/' ∉ f := fun hc => pyBasename_no_slash p (hfmem '/' hc)
  have hslash_e : '/' ∉ e := by
    intro hc
    rcases pyFilenameExt_mem_snd (pyBasename p) '/' (by rw [hfe]; exact hc) with hx | hx | hx | hx
    · exact absurd hx (by decide)
    · exact absurd hx (by decide)
    · exact absurd hx (by decide)
    · exact pyBasename_no_slash p hx
  have hd1 : '/' ∉ natDigits i := by
    intro hc
    have := natDigits_mem i '/' hc
    revert this
    decide
  have hd2 : '.' ∉ natDigits i := by
    intro hc
    have := natDigits_mem i '.' hc
    revert this
    decide
  have hrest : '/' ∉ f ++ iterPat ++ natDigits i ++ e := by
    intro hc
    rcases List.mem_append.mp hc with hc | hc
    · rcases List.mem_append.mp hc with hc | hc
      · rcases List.mem_append.mp hc with hc | hc
        · exact hslash_f hc
        · exact absurd hc (by decide)
      · exact hd1 hc
    · exact hslash_e hc
  have hbn : pyBasename (generateImprovedPath p i) = f ++ iterPat ++ natDigits i ++ e := by
    rw [h1 i]
    exact pyBasename_append _ _ hrest
  have hu : '_' ∈ f ++ iterPat ++ natDigits i :=
    List.mem_append.mpr (Or.inl (List.mem_append.mpr (Or.inr (by decide))))
  have hfe2 : pyFilenameExt (f ++ iterPat ++ natDigits i ++ e) =
      (f ++ iterPat ++ natDigits i, e) := by
    by_cases hdot : '.' ∈ pyBasename p
    · have hsp_eq : pySplitext (pyBasename p) = (f, e) := by
        rw [show pySplitext (pyBasename p) = pyFilenameExt (pyBasename p) from
          (by rw [pyFilenameExt, if_pos hdot]), hfe]
      rcases pySplitext_cases (pyBasename p) hdot with hsp | ⟨stem, etail, hsp, het, hbeq⟩
      · have hpair : (f, e) = (pyBasename p, ([] : List Char)) := hsp_eq.symm.trans hsp
        have hf_eq : f = pyBasename p := congrArg Prod.fst hpair
        have he_eq : e = [] := congrArg Prod.snd hpair
        rw [hf_eq, he_eq, List.append_nil]
        have hz : '.' ∉ iterPat ++ natDigits i := by
          intro hc
          rcases List.mem_append.mp hc with hc | hc
          · exact absurd hc (by decide)
          · exact hd2 hc
        have hsp2 := pySplitext_extend_nodot (pyBasename p) (iterPat ++ natDigits i) hdot hz hsp
        have hdot2 : '.' ∈ pyBasename p ++ iterPat ++ natDigits i :=
          List.mem_append.mpr (Or.inl (List.mem_append.mpr (Or.inl hdot)))
        rw [pyFilenameExt, if_pos hdot2]
        simp only [List.append_assoc]
        simp only [List.append_assoc] at hsp2
        exact hsp2
      · have hpair : (f, e) = (stem, '.' :: etail) := hsp_eq.symm.trans hsp
        have hf_eq : f = stem := congrArg Prod.fst hpair
        have he_eq : e = '.' :: etail := congrArg Prod.snd hpair
        rw [he_eq]
        have hdot2 : '.' ∈ f ++ iterPat ++ natDigits i ++ '.' :: etail :=
          List.mem_append.mpr (Or.inr (List.mem_cons_self _ _))
        rw [pyFilenameExt, if_pos hdot2]
        exact pySplitext_append_dot _ etail het ⟨'_', hu, by decide⟩
    · have hpair : (f, e) = (pyBasename p, ['.', 'm', 'd']) := by
        rw [← hfe, pyFilenameExt, if_neg hdot]
      have hf_eq : f = pyBasename p := congrArg Prod.fst hpair
      have he_eq : e = ['.', 'm', 'd'] := congrArg Prod.snd hpair
      rw [he_eq]
      have hdot2 : '.' ∈ f ++ iterPat ++ natDigits i ++ ['.', 'm', 'd'] :=
        List.mem_append.mpr (Or.inr (by decide))
      rw [pyFilenameExt, if_pos hdot2]
      exact pySplitext_append_dot _ ['m', 'd'] (by decide) ⟨'_', hu, by decide⟩
  have hcs : containsSub iterPat (f ++ iterPat ++ natDigits i) = true := by
    rw [List.append_assoc]
    exact containsSub_append_pat f (natDigits i)
  have hbf : beforeFirst iterPat (f ++ iterPat ++ natDigits i) = f := by
    rw [List.append_assoc]
    exact beforeFirst_append_pat f (natDigits i) h
  conv_lhs => rw [generateImprovedPath]
  rw [hbn, hfe2]
  simp only
  rw [if_pos hcs, hbf, h1 j]

theorem C10_path_idempotent_witness :
    containsSub iterPat (pyFilenameExt (pyBasename "doc.md".toList)).1 = false ∧
    generateImprovedPath (generateImprovedPath "doc.md".toList 1) 2 =
      generateImprovedPath "doc.md".toList 2 :=
  ⟨by decide, C10_path_idempotent "doc.md".toList 1 2 (by decide)⟩
